import Mathlib

/-!
Shallow embedding of `src/model.py` of the `challenge-regression` repository:
a configurable regression pipeline with custom transformers/estimators
(categorical encoding, per-group average extraction, discretization, a
bagging wrapper) assembled from a declarative configuration.

Conventions of the embedding:
* A pandas DataFrame is a `Table`: an ordered list of named columns, each a
  row-aligned list of Python values (`PyVal`).
* Python exceptions are the constructors of `PyError`; fallible code returns
  `Except PyError _`.  The spec's error taxonomy maps onto the Python
  exceptions the code actually raises as follows:
  `UnknownStepError` is the `KeyError` of the registry-dict lookup,
  `InvalidParamsError` is the `TypeError` of a constructor-keyword mismatch,
  `UnknownCategoryError` is the `ValueError` sklearn's encoders raise for a
  value outside the declared category domain, `InvalidStrategyError` is the
  `ValueError` for an unrecognized binning strategy.  `notFittedError`
  (sklearn's `NotFittedError` class) is a constructor of `PyError` because it
  exists in the Python environment, but no code path of `model.py` raises it:
  using a step before `fit` dereferences a missing attribute and raises a
  plain `AttributeError`.
* Numbers are `Rat` (the code's numeric work is exact on the inputs the
  claims use; float rounding is not modelled).
* Unfitted state is modelled as `Option fittedState = none`, matching the
  Python objects on which `fit` has not yet set the fitted attributes.
-/

/-- A Python value as it occurs in the columns and configurations this
module handles: strings, numbers, booleans, and string-to-int mappings
(the shape of `bins_per_column`). -/
inductive PyVal where
  | pstr (s : String)
  | pnum (q : Rat)
  | pbool (b : Bool)
  | pdict (entries : List (String × Nat))
  deriving DecidableEq, Repr

/-- The Python exception classes raised (or importable) in the code paths
this module exercises. -/
inductive PyError where
  | keyError
  | typeError
  | valueError
  | attributeError
  | notFittedError
  deriving DecidableEq, Repr

/-- A pandas DataFrame: ordered, named, row-aligned columns. -/
abbrev Table : Type := List (String × List PyVal)

/-- Column names of a table, in order (`X.columns.tolist()`). -/
def Table.names (X : Table) : List String := X.map Prod.fst

/-- `X[name]`: column selection; pandas raises `KeyError` when absent. -/
def Table.getCol (X : Table) (name : String) : Except PyError (List PyVal) :=
  match X.find? (fun c => c.1 = name) with
  | some c => .ok c.2
  | none => .error .keyError

/-- `X[name] = vals`: pandas `__setitem__`.  Overwrites the values of an
existing column in place (keeping its position); otherwise appends a new
column at the end. -/
def Table.setCol (X : Table) (name : String) (vals : List PyVal) : Table :=
  if name ∈ X.names then
    X.map (fun c => if c.1 = name then (name, vals) else c)
  else
    X ++ [(name, vals)]

/-- First-error-wins effectful map: the behaviour of a Python loop (or of
`Series.apply` / per-column processing) that raises out of the whole call at
the first failing element. -/
def exceptMap {α β : Type} (f : α → Except PyError β) : List α → Except PyError (List β)
  | [] => .ok []
  | a :: l => do
    let b ← f a
    let bs ← exceptMap f l
    .ok (b :: bs)

/-- Mean of a list of rationals (`Series.mean`): sum divided by length.
(The `0/0 = 0` of `Rat` stands in for the float `NaN` of an empty mean;
no claim evaluates a mean over zero rows.) -/
def listMean (l : List Rat) : Rat := l.sum / l.length

section GroupAverage

/-!
## `AverageChargesPerRegionRegressor` / `AverageChargesPerRegionExtractor`

Both classes run the identical `fit` body (`model.py` lines 86-91 and
107-111): build `DataFrame({"region": X["region"], "y": y})`, group by
`region`, take the per-group mean of `y` into the dict `self.means_`, and
store `self.global_mean_ = y.mean()`.  Training rows are modelled as the
row-aligned list of `(region value, y value)` pairs.
-/

/-- Each key once, keeping first occurrences: the key set of the dict the
groupby produces.  (pandas sorts group keys, but only membership and the
key-to-mean association matter to lookup, not the order.) -/
def dedupKeys : List PyVal → List PyVal
  | [] => []
  | k :: l => k :: (dedupKeys l).filter (fun x => x ≠ k)

/-- The keys the groupby produces: each region value of the training data,
once. -/
def groupKeys (rows : List (PyVal × Rat)) : List PyVal :=
  dedupKeys (rows.map Prod.fst)

/-- The mean of `y` over the training rows whose region equals `k`
(the entry `df.groupby("region").mean().to_dict()["y"][k]`). -/
def groupMean (rows : List (PyVal × Rat)) (k : PyVal) : Rat :=
  listMean ((rows.filter (fun r => r.1 = k)).map Prod.snd)

/-- The fitted state both group-average classes store in `fit`. -/
structure AvgFit where
  means_ : List (PyVal × Rat)
  global_mean_ : Rat
  deriving DecidableEq, Repr

/-- `fit` of `AverageChargesPerRegionRegressor` and of
`AverageChargesPerRegionExtractor`: per-region means plus the global mean. -/
def fitAvg (rows : List (PyVal × Rat)) : AvgFit :=
  { means_ := (groupKeys rows).map (fun k => (k, groupMean rows k))
    global_mean_ := listMean (rows.map Prod.snd) }

/-- The inner `get_average`: dict membership test on `self.means_`, falling
back to `self.global_mean_` for unseen keys. -/
def getAverage (f : AvgFit) (x : PyVal) : Rat :=
  match f.means_.find? (fun e => e.1 = x) with
  | some e => e.2
  | none => f.global_mean_

/-- `get_average` as called on a possibly-unfitted instance: reading
`self.means_` before `fit` raises `AttributeError`. -/
def getAverageE (st : Option AvgFit) (x : PyVal) : Except PyError Rat :=
  match st with
  | none => .error .attributeError
  | some f => .ok (getAverage f x)

/-- `AverageChargesPerRegionRegressor.predict`: `X["region"].apply(get_average)`.
The `apply` invokes `get_average` once per row, so an unfitted instance fails
only when there is at least one row. -/
def avgPredict (st : Option AvgFit) (X : Table) : Except PyError (List Rat) := do
  let ks ← X.getCol "region"
  exceptMap (getAverageE st) ks

/-- `AverageChargesPerRegionExtractor.transform`: copy `X`, compute the
per-row average via `apply`, and assign it to column
`"AverageChargeInRegion"` of the copy. -/
def avgTransform (st : Option AvgFit) (X : Table) : Except PyError Table := do
  let ks ← X.getCol "region"
  let avgs ← exceptMap (getAverageE st) ks
  .ok (X.setCol "AverageChargeInRegion" (avgs.map PyVal.pnum))

end GroupAverage

/-- The spec's group-average example training set:
`{region: [A, A, B], charge: [10, 20, 50]}`. -/
def exTrain : List (PyVal × Rat) :=
  [(.pstr "A", 10), (.pstr "A", 20), (.pstr "B", 50)]

/-! ### Helper lemmas -/

@[simp]
theorem exbind_ok {ε α β : Type} (a : α) (f : α → Except ε β) :
    (Except.ok a : Except ε α) >>= f = f a := rfl

@[simp]
theorem exbind_error {ε α β : Type} (e : ε) (f : α → Except ε β) :
    (Except.error e : Except ε α) >>= f = .error e := rfl

theorem mem_dedupKeys (q : PyVal) : ∀ l : List PyVal, q ∈ dedupKeys l ↔ q ∈ l := by
  intro l
  induction l with
  | nil => simp [dedupKeys]
  | cons k l ih =>
    simp only [dedupKeys, List.mem_cons, List.mem_filter, ih]
    constructor
    · rintro (rfl | ⟨h, _⟩)
      · exact Or.inl rfl
      · exact Or.inr h
    · rintro (rfl | h)
      · exact Or.inl rfl
      · by_cases hq : q = k
        · exact Or.inl hq
        · exact Or.inr ⟨h, by simpa using hq⟩

theorem find?_map_keys (f : PyVal → Rat) (q : PyVal) :
    ∀ keys : List PyVal, q ∈ keys →
      (keys.map (fun k => (k, f k))).find? (fun e => e.1 = q) = some (q, f q) := by
  intro keys
  induction keys with
  | nil => simp
  | cons k l ih =>
    intro hq
    by_cases hk : k = q
    · subst hk; simp [List.find?]
    · have hql : q ∈ l := by
        rcases List.mem_cons.mp hq with h | h
        · exact absurd h.symm hk
        · exact h
      simpa [List.find?, hk] using ih hql

theorem find?_map_keys_none (f : PyVal → Rat) (q : PyVal) :
    ∀ keys : List PyVal, q ∉ keys →
      (keys.map (fun k => (k, f k))).find? (fun e => e.1 = q) = none := by
  intro keys
  induction keys with
  | nil => simp
  | cons k l ih =>
    intro hq
    have hk : ¬k = q := fun h => hq (by simp [h])
    have hql : q ∉ l := fun h => hq (List.mem_cons_of_mem _ h)
    simpa [List.find?, hk] using ih hql

/-- On a key present in the training data, the fitted dict lookup hits and
returns that key's group mean. -/
theorem getAverage_mem (rows : List (PyVal × Rat)) (q : PyVal)
    (h : q ∈ rows.map Prod.fst) : getAverage (fitAvg rows) q = groupMean rows q := by
  have hq : q ∈ groupKeys rows := by
    rw [groupKeys, mem_dedupKeys]; exact h
  unfold getAverage fitAvg
  rw [find?_map_keys (groupMean rows) q _ hq]

/-- On a key absent from the training data, the fitted dict lookup misses and
the global mean is returned. -/
theorem getAverage_not_mem (rows : List (PyVal × Rat)) (q : PyVal)
    (h : q ∉ rows.map Prod.fst) :
    getAverage (fitAvg rows) q = listMean (rows.map Prod.snd) := by
  have hq : q ∉ groupKeys rows := by
    rw [groupKeys, mem_dedupKeys]; exact h
  unfold getAverage fitAvg
  rw [find?_map_keys_none (groupMean rows) q _ hq]

/-- `get_average` on a fitted instance never fails. -/
theorem getAverageE_some (f : AvgFit) :
    getAverageE (some f) = fun x => Except.ok (getAverage f x) := rfl

/-- `exceptMap` of an always-succeeding function is the plain `map`. -/
theorem exceptMap_pure {α β : Type} (f : α → β) :
    ∀ l : List α, exceptMap (fun a => (Except.ok (f a) : Except PyError β)) l = .ok (l.map f)
  | [] => rfl
  | a :: l => by
    simp only [exceptMap, List.map, exbind_ok, exceptMap_pure f l]

/-- Selecting the column just assigned returns the assigned values. -/
theorem getCol_setCol (X : Table) (n : String) (vals : List PyVal) :
    (X.setCol n vals).getCol n = .ok vals := by
  unfold Table.setCol
  by_cases h : n ∈ X.names
  · simp only [h, if_true]
    induction X with
    | nil => simp [Table.names] at h
    | cons c X ih =>
      by_cases hc : c.1 = n
      · simp [Table.getCol, List.find?, hc]
      · have hX : n ∈ Table.names X := by
          rcases List.mem_cons.mp h with h' | h'
          · exact absurd h'.symm hc
          · exact h'
        simpa [Table.getCol, List.find?, hc] using ih hX
  · simp only [h, if_false]
    have hnone : X.find? (fun c => c.1 = n) = none := by
      rw [List.find?_eq_none]
      intro c hc
      simp only [decide_eq_true_eq]
      exact fun he => h (by simpa [Table.names, he] using List.mem_map_of_mem Prod.fst hc)
    unfold Table.getCol
    rw [List.find?_append, hnone]
    simp [List.find?]

/-- Assigning a fresh column name appends it, keeping the existing columns
untouched. -/
theorem setCol_fresh (X : Table) (n : String) (vals : List PyVal)
    (h : n ∉ X.names) : X.setCol n vals = X ++ [(n, vals)] := by
  unfold Table.setCol
  simp [h]

/-- C1: for every training set, `AverageChargesPerRegionRegressor.predict`
returns the group mean of the target for a region seen during fit and the
global mean otherwise, `AverageChargesPerRegionExtractor.transform` fills
the `AverageChargeInRegion` column with those same per-row values, and on
the example training set `{region: [A,A,B], charge: [10,20,50]}` the fitted
average is 15 for A, 50 for B and `(10+20+50)/3 = 80/3` for the unseen C. -/
theorem groupAverage_mean_and_fallback (rows : List (PyVal × Rat)) (X : Table) (q : PyVal) :
    (q ∈ rows.map Prod.fst → getAverage (fitAvg rows) q = groupMean rows q)
    ∧ (q ∉ rows.map Prod.fst → getAverage (fitAvg rows) q = listMean (rows.map Prod.snd))
    ∧ (∀ ks, X.getCol "region" = .ok ks →
        avgPredict (some (fitAvg rows)) X = .ok (ks.map (getAverage (fitAvg rows))))
    ∧ (∀ ks Y, X.getCol "region" = .ok ks →
        avgTransform (some (fitAvg rows)) X = .ok Y →
        Y.getCol "AverageChargeInRegion" =
          .ok ((ks.map (getAverage (fitAvg rows))).map PyVal.pnum))
    ∧ getAverage (fitAvg exTrain) (.pstr "A") = 15
    ∧ getAverage (fitAvg exTrain) (.pstr "B") = 50
    ∧ getAverage (fitAvg exTrain) (.pstr "C") = 80 / 3 := by
  refine ⟨getAverage_mem rows q, getAverage_not_mem rows q, ?_, ?_, ?_, ?_, ?_⟩
  · intro ks hks
    unfold avgPredict
    rw [hks]
    simpa [getAverageE] using exceptMap_pure (getAverage (fitAvg rows)) ks
  · intro ks Y hks hY
    unfold avgTransform at hY
    rw [hks] at hY
    simp only [exbind_ok, getAverageE_some,
      exceptMap_pure (getAverage (fitAvg rows)) ks, Except.ok.injEq] at hY
    rw [← hY]
    exact getCol_setCol X "AverageChargeInRegion" _
  · simp [getAverage, fitAvg, groupKeys, groupMean, listMean, exTrain, dedupKeys,
      List.find?, List.filter]
    try norm_num
  · simp [getAverage, fitAvg, groupKeys, groupMean, listMean, exTrain, dedupKeys,
      List.find?, List.filter]
    try norm_num
  · simp [getAverage, fitAvg, groupKeys, groupMean, listMean, exTrain, dedupKeys,
      List.find?, List.filter]
    try norm_num

@[simp]
theorem exmap_ok {ε α β : Type} (f : α → β) (a : α) :
    (Except.ok a : Except ε α).map f = .ok (f a) := rfl

/-- Assigning to a column name that already exists keeps the table's column
names (and order) unchanged: pandas `__setitem__` overwrites in place. -/
theorem names_setCol_mem (X : Table) (n : String) (vals : List PyVal)
    (h : n ∈ X.names) : (X.setCol n vals).names = X.names := by
  unfold Table.setCol
  rw [if_pos h]
  unfold Table.names
  rw [List.map_map]
  refine List.map_congr_left ?_
  intro c _
  by_cases hc : c.1 = n
  · simp [Function.comp, hc]
  · simp [Function.comp, hc]

/-- The table the input of C8's counterexample uses: it already carries an
`AverageChargeInRegion` column. -/
def Xpre : Table := [("region", [.pstr "A"]), ("AverageChargeInRegion", [.pnum 0])]

/-- C8 (counterexample): on an input that already has an
`AverageChargeInRegion` column, `AverageChargesPerRegionExtractor.transform`
overwrites that column in place instead of appending a new one — the output
has the same two column names as the input, not three. -/
theorem extractor_existing_column_not_appended :
    (avgTransform (some (fitAvg exTrain)) Xpre).map Table.names =
      .ok ["region", "AverageChargeInRegion"]
    ∧ (["region", "AverageChargeInRegion"] : List String) ≠
        Xpre.names ++ ["AverageChargeInRegion"] := by
  constructor
  · unfold avgTransform
    have hcol : Xpre.getCol "region" = .ok [.pstr "A"] := rfl
    rw [hcol]
    simp [exbind_ok, getAverageE_some, exceptMap_pure, exmap_ok, Xpre,
      Table.setCol, Table.names]
  · decide

/-- C8 (amended): for a fitted extractor and an input holding a `region`
column but no `AverageChargeInRegion` column, `transform` returns the input's
columns unchanged and in order, with the single new column appended at the
end; the input itself is untouched (the result is a new table built from a
copy). -/
theorem extractor_transform_appends (rows : List (PyVal × Rat)) (X : Table)
    (ks : List PyVal) (hreg : X.getCol "region" = .ok ks)
    (hfresh : "AverageChargeInRegion" ∉ X.names) :
    avgTransform (some (fitAvg rows)) X =
      .ok (X ++ [("AverageChargeInRegion",
        (ks.map (getAverage (fitAvg rows))).map PyVal.pnum)])
    ∧ (X ++ [("AverageChargeInRegion",
        (ks.map (getAverage (fitAvg rows))).map PyVal.pnum)]).names =
          X.names ++ ["AverageChargeInRegion"] := by
  constructor
  · unfold avgTransform
    rw [hreg]
    simp only [exbind_ok, getAverageE_some, exceptMap_pure]
    rw [setCol_fresh X _ _ hfresh]
  · simp [Table.names]

/-- Witness for C8 (amended) on a one-row, one-column input table. -/
theorem extractor_transform_appends_witness :
    (Table.getCol [("region", [PyVal.pstr "A"])] "region" = .ok [PyVal.pstr "A"]
      ∧ "AverageChargeInRegion" ∉ Table.names [("region", [PyVal.pstr "A"])])
    ∧ avgTransform (some (fitAvg exTrain)) [("region", [PyVal.pstr "A"])] =
        .ok ([("region", [PyVal.pstr "A"])] ++ [("AverageChargeInRegion",
          (([PyVal.pstr "A"]).map (getAverage (fitAvg exTrain))).map PyVal.pnum)]) :=
  ⟨⟨rfl, by decide⟩,
    (extractor_transform_appends exTrain [("region", [PyVal.pstr "A"])]
      [PyVal.pstr "A"] rfl (by decide)).1⟩

/-- Witness for C1 at the spec's example: region A occurs in the training
data and the fitted average for A is its group mean, which is 15. -/
theorem groupAverage_mean_and_fallback_witness :
    (PyVal.pstr "A" ∈ exTrain.map Prod.fst
      ∧ getAverage (fitAvg exTrain) (.pstr "A") = groupMean exTrain (.pstr "A"))
    ∧ groupMean exTrain (.pstr "A") = 15 := by
  refine ⟨⟨by decide, (groupAverage_mean_and_fallback exTrain [] (.pstr "A")).1 (by decide)⟩, ?_⟩
  simp [groupMean, listMean, exTrain, List.filter]
  norm_num

section PipelineBuilder

/-!
## `build_estimator` / `get_estimator_mapping`

`model.py` lines 24-47.  A configuration is an ordered list of
`{name, params}` records; `build_estimator` looks each `name` up in the
registry dict (a missing key raises `KeyError`), instantiates the resolved
class with `params` as keyword arguments (a keyword mismatch raises
`TypeError`), and collects the `(name, instance)` pairs in order.
The sklearn `Pipeline` object is the resulting ordered list of steps.
-/

/-- The classes the Estimator Registry maps step names to. -/
inductive EstimatorClass where
  | averageChargesExtractor
  | averageChargesRegressor
  | linearRegression
  | logisticRegression
  | categoricalEncoder
  | oneHotEncoder
  | standardScaler
  | bagging
  | discretizer
  deriving DecidableEq, Repr

/-- Keyword arguments of a constructor call (`params`). -/
abbrev Params : Type := List (String × PyVal)

/-- A configuration entry `{name: ..., params: ...}`. -/
structure ConfigEntry where
  name : String
  params : Params
  deriving DecidableEq, Repr

/-- `get_estimator_mapping` (`model.py` lines 36-47), in source order. -/
def get_estimator_mapping : List (String × EstimatorClass) :=
  [("average-charges-extractor", .averageChargesExtractor),
   ("average-charges-regressor", .averageChargesRegressor),
   ("linear-regressor", .linearRegression),
   ("logistic-regressor", .logisticRegression),
   ("categorical-encoder", .categoricalEncoder),
   ("one-hot-encoder", .oneHotEncoder),
   ("standard-scaler", .standardScaler),
   ("bagging", .bagging),
   ("discretizer", .discretizer)]

/-- `estimator_mapping[name]`: dict subscript, raising `KeyError` when the
name is not a registry key. -/
def lookupEstimator (name : String) : Except PyError EstimatorClass :=
  match get_estimator_mapping.find? (fun p => p.1 = name) with
  | some p => .ok p.2
  | none => .error .keyError

/-- The keyword parameters each constructor accepts.  For the classes of
`model.py` these are read off the `__init__` signatures (the group-average
classes and `BaggRegressor` define none, so they accept no keywords); for
the sklearn classes they are the constructor signatures of the sklearn
release the code targets (it passes `sparse=` and `base_estimator=`). -/
def acceptedKeywords : EstimatorClass → List String
  | .averageChargesExtractor => []
  | .averageChargesRegressor => []
  | .linearRegression => ["fit_intercept", "normalize", "copy_X", "n_jobs", "positive"]
  | .logisticRegression =>
      ["penalty", "dual", "tol", "C", "fit_intercept", "intercept_scaling",
       "class_weight", "random_state", "solver", "max_iter", "multi_class",
       "verbose", "warm_start", "n_jobs", "l1_ratio"]
  | .categoricalEncoder => ["one_hot", "force_dense_array"]
  | .oneHotEncoder => ["categories", "drop", "sparse", "dtype", "handle_unknown"]
  | .standardScaler => ["copy", "with_mean", "with_std"]
  | .bagging => []
  | .discretizer => ["bins_per_column", "strategy"]

/-- The keyword parameters without defaults: `Discretizer.__init__` makes
both of its keywords mandatory; every other constructor's keywords have
defaults. -/
def requiredKeywords : EstimatorClass → List String
  | .discretizer => ["bins_per_column", "strategy"]
  | _ => []

/-- A keyword-argument call `cls(**params)` succeeds iff every supplied
keyword is accepted and every mandatory keyword is supplied. -/
def paramsOk (c : EstimatorClass) (params : Params) : Bool :=
  params.all (fun p => p.1 ∈ acceptedKeywords c)
    && (requiredKeywords c).all (fun r => r ∈ params.map Prod.fst)

/-- A constructed step instance: its class together with the keyword
arguments it was constructed with. -/
structure StepInstance where
  cls : EstimatorClass
  params : Params
  deriving DecidableEq, Repr

/-- `estimator_mapping[name](**params)`: construction raises `TypeError`
when the keywords do not match the constructor signature. -/
def instantiate (c : EstimatorClass) (params : Params) : Except PyError StepInstance :=
  if paramsOk c params then .ok ⟨c, params⟩ else .error .typeError

/-- `build_estimator` (`model.py` lines 24-33): resolve, instantiate and
collect the steps in configuration order; the first failing entry raises. -/
def build_estimator : List ConfigEntry → Except PyError (List (String × StepInstance))
  | [] => .ok []
  | e :: rest => do
    let c ← lookupEstimator e.name
    let inst ← instantiate c e.params
    let steps ← build_estimator rest
    .ok ((e.name, inst) :: steps)

end PipelineBuilder

/-- C2: a successful `build_estimator` returns steps whose names equal the
configuration's names in order, and entrywise each step is an instance of
the class the registry maps that entry's name to, constructed with that
entry's params. -/
theorem build_estimator_preserves_config (config : List ConfigEntry)
    (steps : List (String × StepInstance))
    (h : build_estimator config = .ok steps) :
    steps.map Prod.fst = config.map ConfigEntry.name
    ∧ List.Forall₂ (fun (e : ConfigEntry) (s : String × StepInstance) =>
        s.1 = e.name ∧ lookupEstimator e.name = .ok s.2.cls ∧ s.2.params = e.params)
        config steps := by
  induction config generalizing steps with
  | nil =>
    simp only [build_estimator, Except.ok.injEq] at h
    subst h
    exact ⟨rfl, List.Forall₂.nil⟩
  | cons e rest ih =>
    unfold build_estimator at h
    cases hl : lookupEstimator e.name with
    | error err => rw [hl] at h; simp at h
    | ok c =>
      rw [hl] at h
      simp only [exbind_ok] at h
      cases hi : instantiate c e.params with
      | error err => rw [hi] at h; simp at h
      | ok inst =>
        rw [hi] at h
        simp only [exbind_ok] at h
        cases hr : build_estimator rest with
        | error err => rw [hr] at h; simp at h
        | ok steps' =>
          rw [hr] at h
          simp only [exbind_ok, Except.ok.injEq] at h
          subst h
          have hcls : inst = ⟨c, e.params⟩ := by
            unfold instantiate at hi
            by_cases hp : paramsOk c e.params
            · rw [if_pos hp] at hi; exact (Except.ok.injEq _ _).mp hi.symm
            · rw [if_neg hp] at hi; cases hi
          obtain ⟨ih1, ih2⟩ := ih steps' hr
          refine ⟨by simp [ih1], List.Forall₂.cons ⟨rfl, ?_, ?_⟩ ih2⟩
          · rw [hl, hcls]
          · rw [hcls]

/-- A concrete two-step configuration for the C2 witness. -/
def cfg0 : List ConfigEntry :=
  [⟨"discretizer", [("bins_per_column", .pdict [("age", 3)]), ("strategy", .pstr "uniform")]⟩,
   ⟨"linear-regressor", []⟩]

/-- The steps `build_estimator` produces for `cfg0`. -/
def steps0 : List (String × StepInstance) :=
  [("discretizer", ⟨.discretizer,
      [("bins_per_column", .pdict [("age", 3)]), ("strategy", .pstr "uniform")]⟩),
   ("linear-regressor", ⟨.linearRegression, []⟩)]

/-- Witness for C2: on `cfg0`, building succeeds and the step names come out
in configuration order. -/
theorem build_estimator_preserves_config_witness :
    build_estimator cfg0 = .ok steps0
    ∧ steps0.map Prod.fst = cfg0.map ConfigEntry.name :=
  ⟨rfl, (build_estimator_preserves_config cfg0 steps0 rfl).1⟩

/-- A configuration whose first entry has invalid params (the `Discretizer`
constructor requires both of its keywords) and whose second entry's name is
not a registry key. -/
def cfgBad : List ConfigEntry :=
  [⟨"discretizer", []⟩, ⟨"unknown-step", []⟩]

/-- C7 (counterexample): `cfgBad` contains an entry whose name is not a
registry key, yet `build_estimator` fails with the `TypeError` of the
earlier entry's constructor-keyword mismatch (the spec's
`InvalidParamsError`), not with the lookup `KeyError` (the spec's
`UnknownStepError`). -/
theorem build_estimator_unknown_step_masked :
    lookupEstimator "unknown-step" = .error .keyError
    ∧ (⟨"unknown-step", []⟩ : ConfigEntry) ∈ cfgBad
    ∧ build_estimator cfgBad = .error .typeError
    ∧ PyError.typeError ≠ PyError.keyError := ⟨rfl, by decide, rfl, by decide⟩

/-- C7 (amended): a configuration containing an entry with an unregistered
name always makes `build_estimator` fail, and the failure is the lookup
`KeyError` (the spec's `UnknownStepError`) whenever every entry before the
first unregistered name resolves and instantiates successfully. -/
theorem build_estimator_unknown_step_fails (config : List ConfigEntry)
    (h : ∃ e ∈ config, lookupEstimator e.name = .error .keyError) :
    (∀ steps, build_estimator config ≠ .ok steps)
    ∧ (∀ pre e post, config = pre ++ e :: post →
        lookupEstimator e.name = .error .keyError →
        (∀ e2, e2 ∈ pre → ∃ c, lookupEstimator e2.name = .ok c
          ∧ paramsOk c e2.params = true) →
        build_estimator config = .error .keyError) := by
  constructor
  · induction config with
    | nil => simp at h
    | cons e0 rest ih =>
      intro steps hok
      unfold build_estimator at hok
      cases hl : lookupEstimator e0.name with
      | error err => rw [hl] at hok; simp at hok
      | ok c =>
        rw [hl] at hok
        simp only [exbind_ok] at hok
        cases hi : instantiate c e0.params with
        | error err => rw [hi] at hok; simp at hok
        | ok inst =>
          rw [hi] at hok
          simp only [exbind_ok] at hok
          cases hr : build_estimator rest with
          | error err => rw [hr] at hok; simp at hok
          | ok steps2 =>
            rcases h with ⟨eb, hmem, hbad⟩
            rcases List.mem_cons.mp hmem with rfl | hmem2
            · rw [hl] at hbad; cases hbad
            · exact ih ⟨eb, hmem2, hbad⟩ steps2 hr
  · intro pre
    induction pre generalizing config with
    | nil =>
      intro e post hcfg hbad _
      subst hcfg
      rw [List.nil_append]
      unfold build_estimator
      rw [hbad]
      rfl
    | cons p pre2 ih =>
      intro e post hcfg hbad hvalid
      subst hcfg
      obtain ⟨c, hc, hp⟩ := hvalid p (List.mem_cons_self p pre2)
      have hrest : build_estimator (pre2 ++ e :: post) = .error .keyError := by
        refine ih (pre2 ++ e :: post) ?_ e post rfl hbad ?_
        · exact ⟨e, by simp, hbad⟩
        · intro e2 he2; exact hvalid e2 (List.mem_cons_of_mem p he2)
      show build_estimator (p :: (pre2 ++ e :: post)) = .error .keyError
      unfold build_estimator
      rw [hc]
      simp only [exbind_ok]
      unfold instantiate
      rw [if_pos hp]
      simp only [exbind_ok]
      rw [hrest]
      rfl

/-- The configuration for the C7 amended-claim witness: a valid first entry,
then an unregistered name. -/
def cfgBad2 : List ConfigEntry :=
  [⟨"bagging", []⟩, ⟨"unknown-step", []⟩]

/-- Witness for C7 (amended): on `cfgBad2` the build fails with the lookup
`KeyError`. -/
theorem build_estimator_unknown_step_fails_witness :
    (∃ e ∈ cfgBad2, lookupEstimator e.name = .error .keyError)
    ∧ build_estimator cfgBad2 = .error .keyError := by
  have hex : ∃ e ∈ cfgBad2, lookupEstimator e.name = .error .keyError :=
    ⟨⟨"unknown-step", []⟩, by decide, rfl⟩
  refine ⟨hex, ?_⟩
  refine (build_estimator_unknown_step_fails cfgBad2 hex).2
    [⟨"bagging", []⟩] ⟨"unknown-step", []⟩ [] rfl rfl ?_
  intro e2 he2
  have : e2 = ⟨"bagging", []⟩ := by
    rcases List.mem_cons.mp he2 with h | h
    · exact h
    · simp at h
  subst this
  exact ⟨.bagging, rfl, rfl⟩

section CategoricalEncoderModel

/-!
## `CategoricalEncoder`

`model.py` lines 48-82.  The constructor consults the `data` module (the
Column Registry, a repository module not under `src/`), then `fit` builds a
`ColumnTransformer` over exactly the binary+categorical columns with either
`OneHotEncoder(drop="first", categories=...)` or
`OrdinalEncoder(categories=...)`, `remainder="drop"`; both sklearn encoders
use `handle_unknown="error"` and raise `ValueError` for a value outside the
declared category list, at fit and at transform alike.  `transform` before
`fit` dereferences the missing `_column_transformer` attribute
(`AttributeError`).
-/

/-- Modelled from the spec: the Column Registry interface of the `data`
module (not under `src/`): `get_binary_column_names`,
`get_categorical_column_names` and `get_categorical_variables_values_mapping`
supply the categorical/binary column names and each column's fixed ordered
list of allowed values. -/
structure ColumnRegistry where
  binaryColumnNames : List String
  categoricalColumnNames : List String
  valuesMapping : List (String × List PyVal)
  deriving DecidableEq, Repr

/-- The constructed (not yet fitted) `CategoricalEncoder`: the flag, and the
declared columns paired with their category lists, in registry order. -/
structure CatEncoder where
  one_hot : Bool
  force_dense_array : Bool
  columns : List (String × List PyVal)
  deriving DecidableEq, Repr

/-- `CategoricalEncoder.__init__`: binary then categorical column names,
each looked up in the registry's values mapping (a missing entry raises the
dict `KeyError`). -/
def categoricalEncoderInit (reg : ColumnRegistry) (one_hot force_dense_array : Bool) :
    Except PyError CatEncoder := do
  let names := reg.binaryColumnNames ++ reg.categoricalColumnNames
  let cols ← exceptMap (fun n =>
    match reg.valuesMapping.find? (fun p => p.1 = n) with
    | some p => .ok (n, p.2)
    | none => .error .keyError) names
  .ok ⟨one_hot, force_dense_array, cols⟩

/-- Column selection inside `ColumnTransformer`: sklearn raises `ValueError`
for a column name the input table lacks. -/
def getColCT (X : Table) (name : String) : Except PyError (List PyVal) :=
  match X.find? (fun c => c.1 = name) with
  | some c => .ok c.2
  | none => .error .valueError

/-- The values of a column, or `[]` when absent (used only to phrase
decidable hypotheses; the operational selector is `getColCT`). -/
def colValues (X : Table) (name : String) : List PyVal :=
  match X.find? (fun c => c.1 = name) with
  | some c => c.2
  | none => []

/-- Position of a value in the declared category list (`np.searchsorted`
over the fixed category array reduces to this for exact values). -/
def idxOf? : List PyVal → PyVal → Option Nat
  | [], _ => none
  | c :: cs, v => if c = v then some 0 else (idxOf? cs v).map (fun n => n + 1)

/-- `OrdinalEncoder` on one value: its ordinal in the declared list, or the
unknown-category `ValueError`. -/
def ordinalCode (cats : List PyVal) (v : PyVal) : Except PyError Rat :=
  match idxOf? cats v with
  | some i => .ok (i : Rat)
  | none => .error .valueError

/-- `OneHotEncoder(drop="first")` on one column: one indicator column per
declared category except the first. -/
def oneHotColumns (cats : List PyVal) (col : List PyVal) : List (List Rat) :=
  (cats.drop 1).map (fun c => col.map (fun v => if v = c then (1 : Rat) else 0))

/-- Domain check of one value (`handle_unknown="error"`). -/
def checkVal (cats : List PyVal) (v : PyVal) : Except PyError PyVal :=
  if v ∈ cats then .ok v else .error .valueError

/-- Encode one declared column: indicator columns (one-hot, first category
dropped) or a single ordinal-code column; a value outside the declared
category list raises `ValueError` either way. -/
def encodeColumn (one_hot : Bool) (cats : List PyVal) (col : List PyVal) :
    Except PyError (List (List Rat)) :=
  if one_hot then do
    let _ ← exceptMap (checkVal cats) col
    .ok (oneHotColumns cats col)
  else do
    let codes ← exceptMap (ordinalCode cats) col
    .ok [codes]

/-- The fitted state `fit` stores (`self.n_features_in_` and the fitted
`ColumnTransformer`, which retains only the declared columns and the flag). -/
structure EncFitted where
  n_features_in_ : Nat
  columns : List (String × List PyVal)
  one_hot : Bool
  deriving DecidableEq, Repr

/-- `CategoricalEncoder.fit`: fitting the column transformer validates that
every declared column is present and every training value lies in its
declared category list. -/
def categoricalEncoderFit (enc : CatEncoder) (X : Table) : Except PyError EncFitted := do
  let _ ← exceptMap (fun nc => do
    let col ← getColCT X nc.1
    let _ ← exceptMap (checkVal nc.2) col
    (.ok () : Except PyError Unit)) enc.columns
  .ok ⟨X.length, enc.columns, enc.one_hot⟩

/-- `CategoricalEncoder.transform`: apply the fitted column transformer;
only the encoded declared columns are produced (`remainder="drop"`).
Before `fit` the attribute access raises `AttributeError`. -/
def categoricalEncoderTransform (st : Option EncFitted) (X : Table) :
    Except PyError (List (List Rat)) :=
  match st with
  | none => .error .attributeError
  | some f => do
    let pieces ← exceptMap (fun nc => do
      let col ← getColCT X nc.1
      encodeColumn f.one_hot nc.2 col) f.columns
    .ok pieces.flatten

end CategoricalEncoderModel

/-! ### Generic `exceptMap` lemmas -/

/-- If `f` succeeds on every element, `exceptMap` succeeds, elementwise. -/
theorem exceptMap_ok_of_forall {α β : Type} (f : α → Except PyError β) :
    ∀ l : List α, (∀ a ∈ l, ∃ b, f a = .ok b) →
      ∃ bs, exceptMap f l = .ok bs ∧ List.Forall₂ (fun a b => f a = .ok b) l bs := by
  intro l
  induction l with
  | nil => intro _; exact ⟨[], rfl, List.Forall₂.nil⟩
  | cons a l ih =>
    intro h
    obtain ⟨b, hb⟩ := h a (List.mem_cons_self a l)
    obtain ⟨bs, hbs, hall⟩ := ih (fun x hx => h x (List.mem_cons_of_mem a hx))
    refine ⟨b :: bs, ?_, List.Forall₂.cons hb hall⟩
    unfold exceptMap
    rw [hb]
    simp only [exbind_ok]
    rw [hbs]
    rfl

/-- If `f` fails only with error `e` on the elements of `l` and fails on at
least one of them, `exceptMap` fails with `e` (first error wins, and every
possible first error is `e`). -/
theorem exceptMap_fixed_error {α β : Type} (f : α → Except PyError β) (e : PyError) :
    ∀ l : List α, (∀ a ∈ l, f a = .error e ∨ ∃ b, f a = .ok b) →
      (∃ a ∈ l, f a = .error e) → exceptMap f l = .error e := by
  intro l
  induction l with
  | nil => intro _ hex; simp at hex
  | cons a l ih =>
    intro hall hex
    rcases hall a (List.mem_cons_self a l) with ha | ⟨b, hb⟩
    · unfold exceptMap
      rw [ha]
      rfl
    · unfold exceptMap
      rw [hb]
      simp only [exbind_ok]
      have hrest : exceptMap f l = .error e := by
        refine ih (fun x hx => hall x (List.mem_cons_of_mem a hx)) ?_
        rcases hex with ⟨x, hx, hxe⟩
        rcases List.mem_cons.mp hx with rfl | hx2
        · rw [hb] at hxe; cases hxe
        · exact ⟨x, hx2, hxe⟩
      rw [hrest]
      rfl

/-! ### Encoding lemmas -/

/-- Every element of the right list of a `Forall₂` is related to some
element of the left list. -/
theorem forall₂_mem_right {α β : Type} {R : α → β → Prop} :
    ∀ {l1 : List α} {l2 : List β}, List.Forall₂ R l1 l2 →
      ∀ b ∈ l2, ∃ a ∈ l1, R a b := by
  intro l1 l2 h
  induction h with
  | nil => intro b hb; simp at hb
  | cons hR _ ih =>
    intro b hb
    rcases List.mem_cons.mp hb with rfl | hb2
    · exact ⟨_, List.mem_cons_self _ _, hR⟩
    · obtain ⟨a, ha, hab⟩ := ih b hb2
      exact ⟨a, List.mem_cons_of_mem _ ha, hab⟩

theorem idxOf?_of_mem (v : PyVal) :
    ∀ cats : List PyVal, v ∈ cats → ∃ n, idxOf? cats v = some n ∧ n < cats.length := by
  intro cats
  induction cats with
  | nil => intro h; simp at h
  | cons c cs ih =>
    intro h
    by_cases hc : c = v
    · exact ⟨0, by simp [idxOf?, hc], by simp⟩
    · have hv : v ∈ cs := by
        rcases List.mem_cons.mp h with rfl | h2
        · exact absurd rfl hc
        · exact h2
      obtain ⟨n, hn, hlt⟩ := ih hv
      exact ⟨n + 1, by simp [idxOf?, hc, hn], by simpa using Nat.succ_lt_succ hlt⟩

theorem idxOf?_of_not_mem (v : PyVal) :
    ∀ cats : List PyVal, v ∉ cats → idxOf? cats v = none := by
  intro cats
  induction cats with
  | nil => intro _; rfl
  | cons c cs ih =>
    intro h
    have hc : ¬c = v := fun he => h (by simp [he])
    have hcs : v ∉ cs := fun h2 => h (List.mem_cons_of_mem c h2)
    simp [idxOf?, hc, ih hcs]

/-- With every value in the declared domain, encoding a column succeeds,
yields `k-1` columns in one-hot mode and one column in ordinal mode, and the
ordinal codes are naturals below `k`. -/
theorem encodeColumn_ok_of_dom (one_hot : Bool) (cats col : List PyVal)
    (h : ∀ v ∈ col, v ∈ cats) :
    ∃ piece, encodeColumn one_hot cats col = .ok piece
      ∧ piece.length = (if one_hot then cats.length - 1 else 1)
      ∧ (one_hot = false →
          ∀ codes ∈ piece, ∀ q ∈ codes, ∃ n : Nat, q = (n : Rat) ∧ n < cats.length) := by
  cases one_hot with
  | true =>
    obtain ⟨bs, hbs, -⟩ := exceptMap_ok_of_forall (checkVal cats) col
      (fun v hv => ⟨v, by simp [checkVal, h v hv]⟩)
    refine ⟨oneHotColumns cats col, ?_, ?_, by intro h2; cases h2⟩
    · unfold encodeColumn
      rw [if_pos rfl, hbs]
      rfl
    · simp [oneHotColumns]
  | false =>
    obtain ⟨codes, hcodes, hall⟩ := exceptMap_ok_of_forall (ordinalCode cats) col
      (fun v hv => by
        obtain ⟨n, hn, -⟩ := idxOf?_of_mem v cats (h v hv)
        exact ⟨(n : Rat), by simp [ordinalCode, hn]⟩)
    refine ⟨[codes], ?_, rfl, ?_⟩
    · unfold encodeColumn
      rw [if_neg (by simp), hcodes]
      rfl
    · intro _ cs hcs q hq
      have hcs2 : cs = codes := by simpa using hcs
      subst hcs2
      obtain ⟨v, hv, hfv⟩ := forall₂_mem_right hall q hq
      obtain ⟨n, hn, hlt⟩ := idxOf?_of_mem v cats (h v hv)
      refine ⟨n, ?_, hlt⟩
      have : ordinalCode cats v = .ok (n : Rat) := by simp [ordinalCode, hn]
      rw [this] at hfv
      exact ((Except.ok.injEq _ _).mp hfv).symm

/-- `Except.isOk` as a plain definition over the embedding's error type. -/
def exIsOk {ε α : Type} : Except ε α → Bool
  | .ok _ => true
  | .error _ => false

/-- A succeeding `ColumnTransformer` selection returns the column's values. -/
theorem getColCT_isOk {X : Table} {n : String} (h : exIsOk (getColCT X n) = true) :
    getColCT X n = .ok (colValues X n) := by
  unfold getColCT colValues
  unfold getColCT at h
  cases hf : X.find? (fun c => c.1 = n) with
  | none => rw [hf] at h; cases h
  | some c => rfl

/-- Transfer a pointwise property along an elementwise-success `Forall₂`. -/
theorem forall₂_of_forall₂_ok {α β : Type} {g : α → Except PyError β} {P : α → β → Prop} :
    ∀ {l : List α} {bs : List β}, List.Forall₂ (fun a b => g a = .ok b) l bs →
      (∀ a ∈ l, ∀ b, g a = .ok b → P a b) → List.Forall₂ P l bs := by
  intro l bs h
  induction h with
  | nil => intro _; exact List.Forall₂.nil
  | cons hR _ ih =>
    intro hP
    exact List.Forall₂.cons (hP _ (List.mem_cons_self _ _) _ hR)
      (ih (fun a ha b hb => hP a (List.mem_cons_of_mem _ ha) b hb))

/-- A `Forall₂` that pins a projection of the right element to a function of
the left element yields equality of the mapped lists. -/
theorem forall₂_map_eq {α β γ : Type} {k : β → γ} {h : α → γ} :
    ∀ {l : List α} {bs : List β}, List.Forall₂ (fun a b => k b = h a) l bs →
      bs.map k = l.map h := by
  intro l bs hf
  induction hf with
  | nil => rfl
  | cons hR _ ih => simp [ih, hR]

/-- A column containing a value outside the declared category list fails to
encode, with `ValueError`, in either mode. -/
theorem encodeColumn_error_of_bad (one_hot : Bool) (cats col : List PyVal)
    (hbad : ∃ v ∈ col, v ∉ cats) :
    encodeColumn one_hot cats col = .error .valueError := by
  cases one_hot with
  | true =>
    have hmap : exceptMap (checkVal cats) col = .error .valueError := by
      refine exceptMap_fixed_error _ _ col ?_ ?_
      · intro v _
        by_cases hv : v ∈ cats
        · exact Or.inr ⟨v, by simp [checkVal, hv]⟩
        · exact Or.inl (by simp [checkVal, hv])
      · rcases hbad with ⟨v, hv, hvc⟩
        exact ⟨v, hv, by simp [checkVal, hvc]⟩
    unfold encodeColumn
    rw [if_pos rfl, hmap]
    rfl
  | false =>
    have hmap : exceptMap (ordinalCode cats) col = .error .valueError := by
      refine exceptMap_fixed_error _ _ col ?_ ?_
      · intro v _
        by_cases hv : v ∈ cats
        · obtain ⟨n, hn, -⟩ := idxOf?_of_mem v cats hv
          exact Or.inr ⟨(n : Rat), by simp [ordinalCode, hn]⟩
        · exact Or.inl (by simp [ordinalCode, idxOf?_of_not_mem v cats hv])
      · rcases hbad with ⟨v, hv, hvc⟩
        exact ⟨v, hv, by simp [ordinalCode, idxOf?_of_not_mem v cats hvc]⟩
    unfold encodeColumn
    rw [if_neg (by simp), hmap]
    rfl

/-- Encoding a column either succeeds or raises the unknown-category
`ValueError`; no other error can come out of it. -/
theorem encodeColumn_ok_or_valueError (one_hot : Bool) (cats col : List PyVal) :
    (∃ r, encodeColumn one_hot cats col = .ok r)
    ∨ encodeColumn one_hot cats col = .error .valueError := by
  by_cases h : ∀ v ∈ col, v ∈ cats
  · obtain ⟨piece, hp, -, -⟩ := encodeColumn_ok_of_dom one_hot cats col h
    exact Or.inl ⟨piece, hp⟩
  · push_neg at h
    exact Or.inr (encodeColumn_error_of_bad one_hot cats col h)

/-- C4: for a fitted `CategoricalEncoder` and an input whose declared
columns are present with all values in their declared domains, `transform`
returns exactly the encoded categorical/binary columns (everything else
dropped): per declared column, `k-1` indicator columns in one-hot mode
(first declared category dropped) and exactly one column of integer codes
`0..k-1` in ordinal mode. -/
theorem encoder_transform_shapes (enc : CatEncoder) (Xf X : Table) (f : EncFitted)
    (hfit : categoricalEncoderFit enc Xf = .ok f)
    (hpres : ∀ nc ∈ f.columns, exIsOk (getColCT X nc.1) = true)
    (hdom : ∀ nc ∈ f.columns, ∀ v ∈ colValues X nc.1, v ∈ nc.2) :
    ∃ pieces, categoricalEncoderTransform (some f) X = .ok pieces.flatten
      ∧ List.Forall₂ (fun (nc : String × List PyVal) (piece : List (List Rat)) =>
          piece.length = (if f.one_hot then nc.2.length - 1 else 1)
          ∧ (f.one_hot = false →
              ∀ codes ∈ piece, ∀ q ∈ codes, ∃ n : Nat, q = (n : Rat) ∧ n < nc.2.length))
          f.columns pieces
      ∧ pieces.flatten.length =
          (f.columns.map (fun nc => if f.one_hot then nc.2.length - 1 else 1)).sum := by
  have hg : ∀ nc ∈ f.columns, ∃ piece,
      (do
        let col ← getColCT X nc.1
        encodeColumn f.one_hot nc.2 col) = Except.ok piece := by
    intro nc hnc
    obtain ⟨piece, hp, -, -⟩ :=
      encodeColumn_ok_of_dom f.one_hot nc.2 (colValues X nc.1) (hdom nc hnc)
    refine ⟨piece, ?_⟩
    rw [getColCT_isOk (hpres nc hnc)]
    simpa using hp
  obtain ⟨pieces, hpieces, hall⟩ := exceptMap_ok_of_forall _ f.columns hg
  have hP : List.Forall₂ (fun (nc : String × List PyVal) (piece : List (List Rat)) =>
      piece.length = (if f.one_hot then nc.2.length - 1 else 1)
      ∧ (f.one_hot = false →
          ∀ codes ∈ piece, ∀ q ∈ codes, ∃ n : Nat, q = (n : Rat) ∧ n < nc.2.length))
      f.columns pieces := by
    refine forall₂_of_forall₂_ok hall ?_
    intro nc hnc piece hpc
    obtain ⟨piece2, hp2, hlen, hord⟩ :=
      encodeColumn_ok_of_dom f.one_hot nc.2 (colValues X nc.1) (hdom nc hnc)
    rw [getColCT_isOk (hpres nc hnc)] at hpc
    simp only [exbind_ok] at hpc
    rw [hp2] at hpc
    have : piece2 = piece := (Except.ok.injEq _ _).mp hpc
    subst this
    exact ⟨hlen, hord⟩
  refine ⟨pieces, ?_, hP, ?_⟩
  · simp only [categoricalEncoderTransform]
    rw [hpieces]
    rfl
  · rw [List.length_flatten]
    exact congrArg List.sum (forall₂_map_eq (List.Forall₂.imp (fun a b hab => hab.1) hP))

/-- C5: for a fitted `CategoricalEncoder` — whatever the training data were —
an input whose declared columns are present but which carries, in some
declared column, a value outside that column's declared category list makes
`transform` fail with the unknown-category `ValueError` (the spec's
`UnknownCategoryError`). -/
theorem encoder_unknown_category_fails (enc : CatEncoder) (Xf X : Table) (f : EncFitted)
    (hfit : categoricalEncoderFit enc Xf = .ok f)
    (hpres : ∀ nc ∈ f.columns, exIsOk (getColCT X nc.1) = true)
    (hbad : ∃ nc ∈ f.columns, ∃ v ∈ colValues X nc.1, v ∉ nc.2) :
    categoricalEncoderTransform (some f) X = .error .valueError := by
  have hmap : exceptMap (fun nc => do
      let col ← getColCT X nc.1
      encodeColumn f.one_hot nc.2 col) f.columns = .error .valueError := by
    refine exceptMap_fixed_error _ _ f.columns ?_ ?_
    · intro nc hnc
      rw [getColCT_isOk (hpres nc hnc)]
      simp only [exbind_ok]
      rcases encodeColumn_ok_or_valueError f.one_hot nc.2 (colValues X nc.1) with ⟨r, hr⟩ | hr
      · exact Or.inr ⟨r, hr⟩
      · exact Or.inl hr
    · rcases hbad with ⟨nc, hnc, v, hv, hvc⟩
      refine ⟨nc, hnc, ?_⟩
      rw [getColCT_isOk (hpres nc hnc)]
      simp only [exbind_ok]
      exact encodeColumn_error_of_bad f.one_hot nc.2 (colValues X nc.1) ⟨v, hv, hvc⟩
  simp only [categoricalEncoderTransform]
  rw [hmap]
  rfl

/-- A concrete registry-derived encoder for the C4/C5 witnesses: binary
column `sex`, categorical column `region`, ordinal mode. -/
def encW : CatEncoder :=
  ⟨false, false,
   [("sex", [.pstr "female", .pstr "male"]),
    ("region", [.pstr "northwest", .pstr "southeast"])]⟩

/-- Training table for the witness encoder. -/
def XfW : Table :=
  [("sex", [.pstr "female"]), ("region", [.pstr "northwest"]), ("age", [.pnum 30])]

/-- The fitted state `categoricalEncoderFit encW XfW` produces. -/
def fW : EncFitted :=
  ⟨3,
   [("sex", [.pstr "female", .pstr "male"]),
    ("region", [.pstr "northwest", .pstr "southeast"])],
   false⟩

/-- Witness for C4 on a concrete ordinal-mode encoder and input. -/
theorem encoder_transform_shapes_witness :
    (categoricalEncoderFit encW XfW = .ok fW
      ∧ (∀ nc ∈ fW.columns, exIsOk (getColCT XfW nc.1) = true)
      ∧ (∀ nc ∈ fW.columns, ∀ v ∈ colValues XfW nc.1, v ∈ nc.2))
    ∧ (∃ pieces, categoricalEncoderTransform (some fW) XfW = .ok pieces.flatten
        ∧ List.Forall₂ (fun (nc : String × List PyVal) (piece : List (List Rat)) =>
            piece.length = (if fW.one_hot then nc.2.length - 1 else 1)
            ∧ (fW.one_hot = false →
                ∀ codes ∈ piece, ∀ q ∈ codes, ∃ n : Nat, q = (n : Rat) ∧ n < nc.2.length))
            fW.columns pieces
        ∧ pieces.flatten.length =
            (fW.columns.map (fun nc => if fW.one_hot then nc.2.length - 1 else 1)).sum) :=
  ⟨⟨rfl, by decide, by decide⟩,
   encoder_transform_shapes encW XfW XfW fW rfl (by decide) (by decide)⟩

/-- A query table carrying an undeclared region value. -/
def XB : Table :=
  [("sex", [.pstr "female"]), ("region", [.pstr "mars"])]

/-- Witness for C5: the fitted witness encoder rejects the undeclared region
value `mars` with `ValueError`. -/
theorem encoder_unknown_category_fails_witness :
    (categoricalEncoderFit encW XfW = .ok fW
      ∧ (∀ nc ∈ fW.columns, exIsOk (getColCT XB nc.1) = true)
      ∧ (∃ nc ∈ fW.columns, ∃ v ∈ colValues XB nc.1, v ∉ nc.2))
    ∧ categoricalEncoderTransform (some fW) XB = .error .valueError :=
  ⟨⟨rfl, by decide, by decide⟩,
   encoder_unknown_category_fails encW XfW XB fW rfl (by decide) (by decide)⟩

section DiscretizerModel

/-!
## `Discretizer`

`model.py` lines 126-156.  `fit` records the original column order, unpacks
`bins_per_column` (`zip(*self.bins_per_column.items())` raises `ValueError`
on an empty mapping before any binning), computes
`new_column_order_ = configured columns ++ remaining original columns`, and
fits a `ColumnTransformer` holding a
`KBinsDiscretizer(n_bins=..., encode="ordinal", strategy=...)` over the
configured columns with `remainder="passthrough"`.  `transform` applies the
fitted transformer — producing the binned configured columns first, then the
passthrough remainder in original relative order — and relabels the result
with `new_column_order_`.

`KBinsDiscretizer` semantics embedded here: `fit` accepts exactly the
strategies `uniform`, `quantile` and `kmeans` (any other name raises
`ValueError`), rejects empty data and `n_bins < 2` (`ValueError`); per
column it computes `n_bins + 1` bin edges, of which the `n_bins - 1`
internal ones are stored, and a constant column collapses to a single bin
(empty internal-edge list) whatever the strategy; ordinal `transform` maps a
value to the number of internal edges `≤` it.  Edge placement per strategy,
in exact rational arithmetic in place of the library's floats:
* `uniform`: the equal-width cut points of `np.linspace(min, max, b+1)`;
* `quantile`: `np.percentile(column, np.linspace(0, 100, b+1))` with the
  default linear interpolation over the sorted data, followed by the
  library's removal of degenerate (zero-width) bins — the float `1e-8`
  width threshold becomes exact zero-width removal;
* `kmeans`: one-dimensional `KMeans(n_clusters=b, init=midpoints of the
  uniform bins, n_init=1)` — Lloyd's iteration bounded by the library's
  `max_iter = 300`, nearest-centre assignment breaking ties towards the
  first index as `np.argmin` does, a cluster left empty keeping its previous
  centre (the library relocates a far point there instead; no claim
  evaluates that case) — then edges at the midpoints of the sorted centres
  clamped by the column min/max, with the same degenerate-bin removal.
The properties proved below depend only on the count of internal edges
(at most `n_bins - 1`), not on their placement.
-/

/-- Numeric view of a cell (binning works on numeric columns). -/
def toNum : PyVal → Option Rat
  | .pnum q => some q
  | _ => none

/-- A column handed to `KBinsDiscretizer` must be numeric (`ValueError`
otherwise, from the array conversion). -/
def colNums (col : List PyVal) : Except PyError (List Rat) :=
  exceptMap (fun v =>
    match toNum v with
    | some q => .ok q
    | none => .error .valueError) col

/-- Minimum of a nonempty list (`column.min()`). -/
def listMin : List Rat → Rat
  | [] => 0
  | x :: xs => xs.foldl min x

/-- Maximum of a nonempty list (`column.max()`). -/
def listMax : List Rat → Rat
  | [] => 0
  | x :: xs => xs.foldl max x

/-- Insert into a sorted list, keeping order. -/
def insertSorted (x : Rat) : List Rat → List Rat
  | [] => [x]
  | y :: ys => if x ≤ y then x :: y :: ys else y :: insertSorted x ys

/-- Sort a list of rationals ascending (`np.sort`). -/
def sortRats (l : List Rat) : List Rat := l.foldr insertSorted []

/-- Drop every element equal to its immediate predecessor (continuation of
`dedupConsec`): the exact-arithmetic form of the library's removal of bins
whose width is below its `1e-8` threshold. -/
def dedupConsecGo (prev : Rat) : List Rat → List Rat
  | [] => []
  | y :: ys => if y = prev then dedupConsecGo prev ys else y :: dedupConsecGo y ys

/-- Keep the first edge and every subsequent edge that differs from its
predecessor (`np.ediff1d(bin_edges, to_begin=np.inf) > 1e-8` masking). -/
def dedupConsec : List Rat → List Rat
  | [] => []
  | x :: t => x :: dedupConsecGo x t

/-- The internal bin edges: the full edge list without its two endpoints
(`bin_edges[1:-1]`). -/
def internalEdges (l : List Rat) : List Rat := (l.drop 1).dropLast

/-- `np.percentile` of sorted data at a fractional rank, with the default
linear interpolation. -/
def percentileAt (sorted : List Rat) (rank : Rat) : Rat :=
  let lo := (Rat.floor rank).toNat
  let frac := rank - (Nat.cast lo : Rat)
  let x0 := sorted.getD lo 0
  let x1 := sorted.getD (lo + 1) x0
  x0 + frac * (x1 - x0)

/-- The `quantile` strategy's full edge list:
`np.percentile(column, np.linspace(0, 100, b + 1))`, i.e. the percentile at
rank `i * (n - 1) / b` for `i = 0..b`. -/
def quantileEdges (vals : List Rat) (b : Nat) : List Rat :=
  (List.range (b + 1)).map (fun (i : Nat) =>
    percentileAt (sortRats vals)
      ((Nat.cast i : Rat) * ((Nat.cast vals.length : Rat) - 1) / (Nat.cast b : Rat)))

/-- Index of the nearest centre, first index winning ties (`np.argmin`). -/
def nearestIdx (centers : List Rat) (x : Rat) : Nat :=
  (List.range centers.length).foldl (fun best i =>
    if |centers.getD i 0 - x| < |centers.getD best 0 - x| then i else best) 0

/-- One Lloyd update: each centre moves to the mean of the points assigned
to it (an empty cluster keeps its centre). -/
def lloydStep (vals centers : List Rat) : List Rat :=
  (List.range centers.length).map (fun i =>
    let cluster := vals.filter (fun x => nearestIdx centers x = i)
    if cluster.length = 0 then centers.getD i 0 else listMean cluster)

/-- Lloyd's iteration with the library's `max_iter` bound, stopping early at
a fixed point. -/
def lloydIter : Nat → List Rat → List Rat → List Rat
  | 0, _, centers => centers
  | k + 1, vals, centers =>
    let c2 := lloydStep vals centers
    if c2 = centers then centers else lloydIter k vals c2

/-- The `kmeans` strategy's full edge list: 1-D k-means from the
uniform-bin-midpoint initialisation (`n_init=1`, `max_iter=300`), edges at
the midpoints of the sorted centres, clamped by the column min/max. -/
def kmeansEdges (vals : List Rat) (mn mx : Rat) (b : Nat) : List Rat :=
  let uniformFull := (List.range (b + 1)).map (fun (i : Nat) =>
    mn + (Nat.cast i : Rat) * (mx - mn) / (Nat.cast b : Rat))
  let init := (List.range b).map (fun i =>
    (uniformFull.getD i 0 + uniformFull.getD (i + 1) 0) / 2)
  let centers := sortRats (lloydIter 300 vals init)
  let mids := (List.range (b - 1)).map (fun i =>
    (centers.getD i 0 + centers.getD (i + 1) 0) / 2)
  mn :: (mids ++ [mx])

/-- `KBinsDiscretizer.fit` for one column: validates the strategy name, the
data and the bin count, then returns the stored internal bin edges for the
chosen strategy; a constant column collapses to a single bin with no
internal edges. -/
def kbinsFitColumn (strategy : String) (b : Nat) (vals : List Rat) :
    Except PyError (List Rat) :=
  if strategy = "uniform" ∨ strategy = "quantile" ∨ strategy = "kmeans" then
    if vals.length = 0 then .error .valueError
    else if b < 2 then .error .valueError
    else
      let mn := listMin vals
      let mx := listMax vals
      if mn = mx then .ok []
      else if strategy = "uniform" then
        .ok ((List.range (b - 1)).map
          (fun (i : Nat) => mn + ((Nat.cast (i + 1) : Rat)) * (mx - mn) / (Nat.cast b : Rat)))
      else if strategy = "quantile" then
        .ok (internalEdges (dedupConsec (quantileEdges vals b)))
      else
        .ok (internalEdges (dedupConsec (kmeansEdges vals mn mx b)))
  else .error .valueError

example : kbinsFitColumn "quantile" 2 [0, 1] = .ok [1 / 2] := by
  simp [kbinsFitColumn, listMin, listMax, quantileEdges, percentileAt, sortRats,
    insertSorted, dedupConsec, dedupConsecGo, internalEdges, List.range_succ]
  norm_num [Rat.floor]

example : kbinsFitColumn "kmeans" 3 [2] = .ok [] := rfl

example : kbinsFitColumn "invalid-strategy" 3 [2] = .error .valueError := rfl

/-- The constructed `Discretizer`: the (insertion-ordered, unique-keyed)
`bins_per_column` mapping and the strategy name. -/
structure Discretizer where
  bins_per_column : List (String × Nat)
  strategy : String
  deriving DecidableEq, Repr

/-- One fitted configured column: its name, its configured bin count, and
the fitted internal bin edges. -/
structure ColBins where
  name : String
  n_bins : Nat
  edges : List Rat
  deriving DecidableEq, Repr

/-- The state `Discretizer.fit` stores. -/
structure DiscFitted where
  n_features_in_ : Nat
  original_column_order_ : List String
  columns_ : List String
  new_column_order_ : List String
  binEdges : List ColBins
  deriving DecidableEq, Repr

/-- `Discretizer.fit`: record the column order, unpack the configuration
(failing on an empty mapping), compute the reassembled column order, and fit
the per-column discretizers. -/
def discretizerFit (d : Discretizer) (X : Table) (y : List Rat) :
    Except PyError DiscFitted :=
  if d.bins_per_column.isEmpty then .error .valueError
  else do
    let originalOrder := X.names
    let cols := d.bins_per_column.map Prod.fst
    let newOrder := cols ++ originalOrder.filter (fun n => n ∉ cols)
    let fitted ← exceptMap (fun cb => do
      let col ← getColCT X cb.1
      let nums ← colNums col
      let edges ← kbinsFitColumn d.strategy cb.2 nums
      (.ok ⟨cb.1, cb.2, edges⟩ : Except PyError ColBins)) d.bins_per_column
    .ok ⟨X.length, originalOrder, cols, newOrder, fitted⟩

/-- Ordinal code of one value: the number of internal bin edges `≤` it
(`np.searchsorted(edges, x, side="right")`). -/
def binCode (edges : List Rat) (x : Rat) : Nat :=
  edges.countP (fun e => e ≤ x)

/-- `Discretizer.transform`: before `fit` the missing
`_column_transformer` attribute raises `AttributeError`; the fitted
transformer requires the input schema it was fitted on, bins the configured
columns, passes the remaining columns through in original relative order,
and the result is relabelled with `new_column_order_`. -/
def discretizerTransform (st : Option DiscFitted) (X : Table) : Except PyError Table :=
  match st with
  | none => .error .attributeError
  | some f =>
    if X.names = f.original_column_order_ then do
      let binned ← exceptMap (fun (ce : ColBins) => do
        let col ← getColCT X ce.name
        let nums ← colNums col
        (.ok (nums.map (fun x => PyVal.pnum ((binCode ce.edges x : Nat) : Rat)))
          : Except PyError (List PyVal))) f.binEdges
      let rest := (X.filter (fun c => c.1 ∉ f.columns_)).map Prod.snd
      .ok (f.new_column_order_.zip (binned ++ rest))
    else .error .valueError

end DiscretizerModel

/-- C10: `Discretizer.fit` with an empty `bins_per_column` mapping fails —
with the `ValueError` of unpacking `zip(*{}.items())` into two names —
for every input dataset and strategy, before any binning occurs. -/
theorem discretizer_fit_empty_bins_fails (strategy : String) (X : Table) (y : List Rat) :
    discretizerFit ⟨[], strategy⟩ X y = .error .valueError := rfl

/-! ### Discretizer lemmas -/

/-- Inversion of a successful `Except` bind. -/
theorem exbind_eq_ok {ε α β : Type} {x : Except ε α} {f : α → Except ε β} {b : β}
    (h : x >>= f = .ok b) : ∃ a, x = .ok a ∧ f a = .ok b := by
  cases x with
  | ok a => exact ⟨a, rfl, h⟩
  | error e => simp at h

/-- Inversion of a successful `exceptMap`: elementwise success. -/
theorem exceptMap_ok_inv {α β : Type} (f : α → Except PyError β) :
    ∀ (l : List α) (bs : List β), exceptMap f l = .ok bs →
      List.Forall₂ (fun a b => f a = .ok b) l bs := by
  intro l
  induction l with
  | nil =>
    intro bs h
    injection h with h
    rw [← h]
    exact .nil
  | cons a t ih =>
    intro bs h
    unfold exceptMap at h
    cases hfa : f a with
    | error e => rw [hfa] at h; simp at h
    | ok b =>
      rw [hfa] at h
      simp only [exbind_ok] at h
      cases hrest : exceptMap f t with
      | error e => rw [hrest] at h; simp at h
      | ok bs2 =>
        rw [hrest] at h
        simp only [exbind_ok, Except.ok.injEq] at h
        rw [← h]
        exact .cons hfa (ih bs2 hrest)

/-- A successful column selection implies the name is a column name. -/
theorem getColCT_ok_mem {X : Table} {n : String} {col : List PyVal}
    (h : getColCT X n = .ok col) : n ∈ X.names := by
  unfold getColCT at h
  cases hf : X.find? (fun c => c.1 = n) with
  | none => rw [hf] at h; cases h
  | some c =>
    have hm := List.mem_of_find?_eq_some hf
    have hp := List.find?_some hf
    simp only [decide_eq_true_eq] at hp
    exact hp ▸ List.mem_map_of_mem Prod.fst hm

/-- A present column selects its values. -/
theorem getColCT_of_mem {X : Table} {n : String} (h : n ∈ X.names) :
    getColCT X n = .ok (colValues X n) := by
  unfold getColCT colValues
  cases hf : X.find? (fun c => c.1 = n) with
  | some c => rfl
  | none =>
    rw [List.find?_eq_none] at hf
    obtain ⟨c, hc, he⟩ := List.mem_map.mp h
    exact absurd (by simpa using he) (by simpa using hf c hc)

/-- Dropping consecutive duplicates never lengthens a list. -/
theorem dedupConsecGo_length_le : ∀ (l : List Rat) (prev : Rat),
    (dedupConsecGo prev l).length ≤ l.length := by
  intro l
  induction l with
  | nil => intro prev; simp [dedupConsecGo]
  | cons y ys ih =>
    intro prev
    unfold dedupConsecGo
    by_cases hy : y = prev
    · rw [if_pos hy]
      exact Nat.le_succ_of_le (ih prev)
    · rw [if_neg hy]
      simpa using ih y

theorem dedupConsec_length_le : ∀ l : List Rat, (dedupConsec l).length ≤ l.length
  | [] => Nat.le_refl _
  | x :: t => by
    unfold dedupConsec
    simpa using dedupConsecGo_length_le t x

/-- Stripping the two endpoints of a deduplicated edge list leaves at most
two fewer edges than the original list. -/
theorem internalEdges_dedup_le (l : List Rat) :
    (internalEdges (dedupConsec l)).length ≤ l.length - 2 := by
  unfold internalEdges
  have h1 := dedupConsec_length_le l
  rw [List.length_dropLast, List.length_drop]
  omega

/-- The quantile strategy computes `b + 1` full edges. -/
theorem quantileEdges_length (vals : List Rat) (b : Nat) :
    (quantileEdges vals b).length = b + 1 := by
  unfold quantileEdges
  rw [List.length_map, List.length_range]

/-- The kmeans strategy computes `b + 1` full edges (for a valid `b ≥ 2`). -/
theorem kmeansEdges_length (vals : List Rat) (mn mx : Rat) (b : Nat) (hb : 2 ≤ b) :
    (kmeansEdges vals mn mx b).length = b + 1 := by
  unfold kmeansEdges
  simp
  omega

/-- Inversion of a successful per-column `KBinsDiscretizer` fit: the bin
count was at least 2 and at most `n_bins - 1` internal edges were stored,
whichever of the three strategies was used. -/
theorem kbinsFitColumn_ok {strategy : String} {b : Nat} {vals edges : List Rat}
    (h : kbinsFitColumn strategy b vals = .ok edges) :
    edges.length ≤ b - 1 ∧ 2 ≤ b := by
  unfold kbinsFitColumn at h
  by_cases hs : strategy = "uniform" ∨ strategy = "quantile" ∨ strategy = "kmeans"
  · rw [if_pos hs] at h
    by_cases h0 : vals.length = 0
    · rw [if_pos h0] at h; cases h
    · rw [if_neg h0] at h
      by_cases hb : b < 2
      · rw [if_pos hb] at h; cases h
      · rw [if_neg hb] at h
        refine ⟨?_, by omega⟩
        by_cases hc : listMin vals = listMax vals
        · rw [if_pos hc] at h
          injection h with h
          rw [← h]
          simp
        · rw [if_neg hc] at h
          by_cases hu : strategy = "uniform"
          · rw [if_pos hu] at h
            injection h with h
            rw [← h]
            simp only [List.length_map, List.length_range]
            exact Nat.le_refl _
          · rw [if_neg hu] at h
            by_cases hq : strategy = "quantile"
            · rw [if_pos hq] at h
              injection h with h
              rw [← h]
              have := internalEdges_dedup_le (quantileEdges vals b)
              rw [quantileEdges_length vals b] at this
              omega
            · rw [if_neg hq] at h
              injection h with h
              rw [← h]
              have := internalEdges_dedup_le (kmeansEdges vals (listMin vals) (listMax vals) b)
              rw [kmeansEdges_length vals (listMin vals) (listMax vals) b (by omega)] at this
              omega
  · rw [if_neg hs] at h; cases h

/-- Inversion of a successful `Discretizer.fit`: the stored column orders,
and per configured column the fitted edge list respecting the configured
bin count, the column being present in the fitted table. -/
theorem discretizerFit_ok {d : Discretizer} {X : Table} {y : List Rat} {st : DiscFitted}
    (h : discretizerFit d X y = .ok st) :
    st.original_column_order_ = X.names
    ∧ st.columns_ = d.bins_per_column.map Prod.fst
    ∧ st.new_column_order_ =
        st.columns_ ++ st.original_column_order_.filter (fun n => n ∉ st.columns_)
    ∧ List.Forall₂ (fun (cb : String × Nat) (e : ColBins) =>
        e.name = cb.1 ∧ e.n_bins = cb.2 ∧ e.edges.length ≤ cb.2 - 1 ∧ 2 ≤ cb.2
          ∧ cb.1 ∈ X.names)
        d.bins_per_column st.binEdges := by
  unfold discretizerFit at h
  by_cases he : d.bins_per_column.isEmpty
  · rw [if_pos he] at h; cases h
  · rw [if_neg he] at h
    cases hm : exceptMap (fun cb => do
        let col ← getColCT X cb.1
        let nums ← colNums col
        let edges ← kbinsFitColumn d.strategy cb.2 nums
        (.ok ⟨cb.1, cb.2, edges⟩ : Except PyError ColBins)) d.bins_per_column with
    | error e => rw [hm] at h; simp at h
    | ok fitted =>
      rw [hm] at h
      simp only [exbind_ok, Except.ok.injEq] at h
      subst h
      refine ⟨rfl, rfl, rfl, ?_⟩
      refine forall₂_of_forall₂_ok (exceptMap_ok_inv _ _ _ hm) ?_
      intro cb _ e hg
      obtain ⟨col, hcol, hg2⟩ := exbind_eq_ok hg
      obtain ⟨nums, hnums, hg3⟩ := exbind_eq_ok hg2
      obtain ⟨edges, hedges, hg4⟩ := exbind_eq_ok hg3
      obtain ⟨h1, h2⟩ := kbinsFitColumn_ok hedges
      have he2 : e = ⟨cb.1, cb.2, edges⟩ := ((Except.ok.injEq _ _).mp hg4).symm
      subst he2
      exact ⟨rfl, rfl, h1, h2, getColCT_ok_mem hcol⟩

/-- Compose two aligned `Forall₂`s through a middle list. -/
theorem forall₂_compose {α β γ : Type} {R : α → β → Prop} {S : β → γ → Prop}
    {T : α → γ → Prop} (hTR : ∀ a b c, R a b → S b c → T a c) :
    ∀ {l1 : List α} {l2 : List β} {l3 : List γ},
      List.Forall₂ R l1 l2 → List.Forall₂ S l2 l3 → List.Forall₂ T l1 l3 := by
  intro l1 l2 l3 h1
  induction h1 generalizing l3 with
  | nil =>
    intro h2
    cases h2
    exact .nil
  | cons hab _ ih =>
    intro h2
    cases h2 with
    | cons hbc h2t => exact .cons (hTR _ _ _ hab hbc) (ih h2t)

/-- Projecting the names out of a filtered table equals filtering the
names. -/
theorem names_filter (q : String → Bool) :
    ∀ X : Table, (X.filter (fun c => q c.1)).map Prod.fst = X.names.filter q := by
  intro X
  induction X with
  | nil => rfl
  | cons c t ih =>
    show List.map Prod.fst (List.filter (fun c => q c.1) (c :: t)) = _
    cases hq : q c.1 with
    | true => simp [List.filter, hq, Table.names, ih, List.filter_cons]
    | false => simp [List.filter, hq, Table.names, ih, List.filter_cons]

/-- Zipping the two projections of a pair list rebuilds the list. -/
theorem zip_fst_snd {α β : Type} : ∀ l : List (α × β),
    (l.map Prod.fst).zip (l.map Prod.snd) = l := by
  intro l
  induction l with
  | nil => rfl
  | cons c t ih => simp [ih]

/-- Searching a filtered list for an element whose property implies the
filter keeps it finds the same element as searching the whole list. -/
theorem find?_filter_of_imp {α : Type} (p q : α → Bool)
    (h : ∀ c, p c = true → q c = true) :
    ∀ l : List α, (l.filter q).find? p = l.find? p := by
  intro l
  induction l with
  | nil => rfl
  | cons c t ih =>
    cases hq : q c with
    | true =>
      rw [List.filter_cons_of_pos hq]
      cases hp : p c with
      | true => rw [List.find?_cons_of_pos _ hp, List.find?_cons_of_pos _ hp]
      | false =>
        rw [List.find?_cons_of_neg _ (by simp [hp]), List.find?_cons_of_neg _ (by simp [hp]), ih]
    | false =>
      have hp : p c = false := by
        cases hpc : p c with
        | false => rfl
        | true => rw [h c hpc] at hq; cases hq
      rw [List.filter_cons_of_neg (by simp [hq]), List.find?_cons_of_neg _ (by simp [hp]), ih]

/-- Looking a configured column up in the zip of configured names with
per-column data finds the aligned entry (configured names are unique). -/
theorem find?_zip_forall₂ {β : Type} {P : (String × Nat) → β → Prop} :
    ∀ {bins : List (String × Nat)} {cols : List β},
      List.Forall₂ P bins cols → (bins.map Prod.fst).Nodup →
      ∀ cb ∈ bins, ∃ codes,
        ((bins.map Prod.fst).zip cols).find? (fun c => c.1 = cb.1) = some (cb.1, codes)
        ∧ P cb codes := by
  intro bins cols h
  induction h with
  | nil => intro _ cb hcb; simp at hcb
  | @cons a b l1 l2 hab htl ih =>
    intro hnodup cb hcb
    have hnd2 : (l1.map Prod.fst).Nodup := (List.nodup_cons.mp hnodup).2
    have hna : a.1 ∉ l1.map Prod.fst := (List.nodup_cons.mp hnodup).1
    rcases List.mem_cons.mp hcb with rfl | hcb2
    · exact ⟨b, by simp [List.find?], hab⟩
    · have hne : ¬a.1 = cb.1 := by
        intro he
        exact hna (he ▸ List.mem_map_of_mem Prod.fst hcb2)
      obtain ⟨codes, hfind, hP⟩ := ih hnd2 cb hcb2
      refine ⟨codes, ?_, hP⟩
      show List.find? _ ((a.1, b) :: (l1.map Prod.fst).zip l2) = _
      rw [List.find?_cons_of_neg _ (by simpa using hne), hfind]

/-- Read a column off a located entry. -/
theorem colValues_of_find? {X : Table} {n : String} {c : String × List PyVal}
    (h : X.find? (fun c => c.1 = n) = some c) : colValues X n = c.2 := by
  unfold colValues
  rw [h]

/-- Equal searches give equal column reads. -/
theorem colValues_congr_find? {X X2 : Table} {n n2 : String}
    (h : X.find? (fun c => c.1 = n) = X2.find? (fun c => c.1 = n2)) :
    colValues X n = colValues X2 n2 := by
  unfold colValues
  rw [h]

/-- C3: for a Discretizer fitted on some table — with any of the three
accepted strategies — and any input with the fitted schema whose configured
columns are numeric,
`transform` succeeds; its column order is exactly the configured columns in
configured order followed by the remaining original columns in original
relative order; each configured column holds integer ordinal codes in
`0..bins-1` for that column's configured bin count; every other column's
values are unchanged; and repeated transforms of the same input give the
identical output. -/
theorem discretizer_transform_shape (d : Discretizer) (Xf X : Table) (y : List Rat)
    (st : DiscFitted)
    (hfit : discretizerFit d Xf y = .ok st)
    (hnodup : (d.bins_per_column.map Prod.fst).Nodup)
    (hX : X.names = st.original_column_order_)
    (hnum : ∀ c ∈ st.columns_, exIsOk (colNums (colValues X c)) = true) :
    ∃ Y, discretizerTransform (some st) X = .ok Y
      ∧ Y.names = st.new_column_order_
      ∧ st.new_column_order_ =
          st.columns_ ++ st.original_column_order_.filter (fun n => n ∉ st.columns_)
      ∧ (∀ cb ∈ d.bins_per_column, ∀ v ∈ colValues Y cb.1,
          ∃ n : Nat, v = PyVal.pnum (n : Rat) ∧ n < cb.2)
      ∧ (∀ name, name ∉ st.columns_ → colValues Y name = colValues X name)
      ∧ (∀ Y2, discretizerTransform (some st) X = .ok Y2 → Y2 = Y) := by
  obtain ⟨horig, hcols, hnew, hfall⟩ := discretizerFit_ok hfit
  have hg : ∀ ce ∈ st.binEdges, ∃ codes,
      (do
        let col ← getColCT X ce.name
        let nums ← colNums col
        (.ok (nums.map (fun x => PyVal.pnum ((binCode ce.edges x : Nat) : Rat)))
          : Except PyError (List PyVal))) = Except.ok codes := by
    intro ce hce
    obtain ⟨cb, hcb, hR⟩ := forall₂_mem_right hfall ce hce
    have hname : ce.name ∈ X.names := by
      rw [hX, horig]
      exact hR.1 ▸ hR.2.2.2.2
    have hmemc : ce.name ∈ st.columns_ := by
      rw [hcols, hR.1]
      exact List.mem_map_of_mem Prod.fst hcb
    have hok := hnum ce.name hmemc
    rw [getColCT_of_mem hname]
    simp only [exbind_ok]
    cases hnums : colNums (colValues X ce.name) with
    | error e => rw [hnums] at hok; cases hok
    | ok nums =>
      refine ⟨nums.map (fun x => PyVal.pnum ((binCode ce.edges x : Nat) : Rat)), ?_⟩
      simp only [exbind_ok]
  obtain ⟨binned, hbinned, hallb⟩ := exceptMap_ok_of_forall _ st.binEdges hg
  have hS : List.Forall₂ (fun (ce : ColBins) (codes : List PyVal) =>
      ∀ v ∈ codes, ∃ n : Nat, v = PyVal.pnum (n : Rat) ∧ n ≤ ce.edges.length)
      st.binEdges binned := by
    refine forall₂_of_forall₂_ok hallb ?_
    intro ce _ codes hg2
    obtain ⟨col, hcol, hg3⟩ := exbind_eq_ok hg2
    obtain ⟨nums, hnums, hg4⟩ := exbind_eq_ok hg3
    have hcodes : codes = nums.map
        (fun x => PyVal.pnum ((binCode ce.edges x : Nat) : Rat)) :=
      ((Except.ok.injEq _ _).mp hg4).symm
    subst hcodes
    intro v hv
    obtain ⟨x, -, hx⟩ := List.mem_map.mp hv
    exact ⟨binCode ce.edges x, hx.symm, List.countP_le_length _⟩
  have hT : List.Forall₂ (fun (cb : String × Nat) (codes : List PyVal) =>
      ∀ v ∈ codes, ∃ n : Nat, v = PyVal.pnum (n : Rat) ∧ n < cb.2)
      d.bins_per_column binned := by
    refine forall₂_compose ?_ hfall hS
    intro cb ce codes hR hSc v hv
    obtain ⟨n, hn, hle⟩ := hSc v hv
    refine ⟨n, hn, ?_⟩
    have h1 := hR.2.2.1
    have h2 := hR.2.2.2.1
    omega
  have hlq : (X.filter (fun c => c.1 ∉ st.columns_)).map Prod.fst =
      st.original_column_order_.filter (fun n => n ∉ st.columns_) := by
    rw [names_filter (fun n => decide (n ∉ st.columns_)) X, hX]
  have hlen1 : st.columns_.length = binned.length := by
    have e1 := List.Forall₂.length_eq hallb
    have e2 := List.Forall₂.length_eq hfall
    rw [hcols, List.length_map]
    omega
  have hlen2 : ((X.filter (fun c => c.1 ∉ st.columns_)).map Prod.snd).length =
      (st.original_column_order_.filter (fun n => n ∉ st.columns_)).length := by
    rw [List.length_map, ← hlq, List.length_map]
  have hsplit : st.new_column_order_.zip
      (binned ++ (X.filter (fun c => c.1 ∉ st.columns_)).map Prod.snd) =
      st.columns_.zip binned ++
        (st.original_column_order_.filter (fun n => n ∉ st.columns_)).zip
          ((X.filter (fun c => c.1 ∉ st.columns_)).map Prod.snd) := by
    rw [hnew]
    exact List.zip_append hlen1
  have htr : discretizerTransform (some st) X = .ok (st.new_column_order_.zip
      (binned ++ (X.filter (fun c => c.1 ∉ st.columns_)).map Prod.snd)) := by
    simp only [discretizerTransform]
    rw [if_pos hX, hbinned]
    simp only [exbind_ok]
  refine ⟨st.new_column_order_.zip
    (binned ++ (X.filter (fun c => c.1 ∉ st.columns_)).map Prod.snd),
    htr, ?_, hnew, ?_, ?_, ?_⟩
  · unfold Table.names
    refine List.map_fst_zip _ _ ?_
    rw [hnew]
    simp only [List.length_append, hlen1, hlen2]
    exact Nat.le_refl _
  · intro cb hcb v hv
    obtain ⟨codes, hfind, hTc⟩ := find?_zip_forall₂ hT hnodup cb hcb
    have hfindY : (st.new_column_order_.zip
        (binned ++ (X.filter (fun c => c.1 ∉ st.columns_)).map Prod.snd)).find?
          (fun c => c.1 = cb.1) = some (cb.1, codes) := by
      rw [hsplit, List.find?_append, hcols, hfind]
      rfl
    rw [colValues_of_find? hfindY] at hv
    exact hTc v hv
  · intro name hname
    refine colValues_congr_find? ?_
    rw [hsplit, List.find?_append]
    have hpre : (st.columns_.zip binned).find? (fun c => c.1 = name) = none := by
      rw [List.find?_eq_none]
      intro c hc
      have hc1 := (List.of_mem_zip hc).1
      simp only [decide_eq_true_eq]
      intro he
      exact hname (he ▸ hc1)
    have hzip : (st.original_column_order_.filter (fun n => n ∉ st.columns_)).zip
        ((X.filter (fun c => c.1 ∉ st.columns_)).map Prod.snd) =
        X.filter (fun c => c.1 ∉ st.columns_) := by
      rw [← hlq]
      exact zip_fst_snd _
    rw [hpre, hzip]
    show Option.or none _ = _
    rw [Option.none_or]
    exact find?_filter_of_imp _ _ (fun c hc => by
      simp only [decide_eq_true_eq] at hc ⊢
      exact hc ▸ hname) X
  · intro Y2 h2
    rw [htr] at h2
    exact ((Except.ok.injEq _ _).mp h2).symm

/-- Witness data: one configured column, constant single-row table. -/
def dW : Discretizer := ⟨[("age", 3)], "uniform"⟩

/-- Witness fit input. -/
def XdW : Table := [("age", [.pnum 2]), ("bmi", [.pnum 7])]

/-- The state `discretizerFit dW XdW []` produces (the constant `age`
column collapses to a single bin with no internal edges). -/
def stW : DiscFitted := ⟨2, ["age", "bmi"], ["age"], ["age", "bmi"], [⟨"age", 3, []⟩]⟩

/-- Witness for C3 on the concrete fitted Discretizer `stW`. -/
theorem discretizer_transform_shape_witness :
    (discretizerFit dW XdW [] = .ok stW
      ∧ (dW.bins_per_column.map Prod.fst).Nodup
      ∧ Table.names XdW = stW.original_column_order_
      ∧ (∀ c ∈ stW.columns_, exIsOk (colNums (colValues XdW c)) = true))
    ∧ (∃ Y, discretizerTransform (some stW) XdW = .ok Y
        ∧ Y.names = stW.new_column_order_
        ∧ stW.new_column_order_ =
            stW.columns_ ++ stW.original_column_order_.filter (fun n => n ∉ stW.columns_)
        ∧ (∀ cb ∈ dW.bins_per_column, ∀ v ∈ colValues Y cb.1,
            ∃ n : Nat, v = PyVal.pnum (n : Rat) ∧ n < cb.2)
        ∧ (∀ name, name ∉ stW.columns_ → colValues Y name = colValues XdW name)
        ∧ (∀ Y2, discretizerTransform (some stW) XdW = .ok Y2 → Y2 = Y)) :=
  ⟨⟨rfl, by decide, rfl, by decide⟩,
   discretizer_transform_shape dW XdW XdW [] stW rfl (by decide) rfl (by decide)⟩

section BaggingModel

/-!
## `BaggRegressor`

`model.py` lines 158-165: `fit` stores
`BaggingRegressor(base_estimator=LinearRegression(), random_state=0).fit(X, y)`;
`predict` delegates to the stored model (`AttributeError` before `fit`).

The embedding makes the randomness explicit: fitting takes the ambient
global-RNG state as input; `random_state=0` means the constant seed 0 is
used and the ambient state is neither consulted nor advanced, whereas
`random_state=None` would draw from (and advance) the ambient state.  The
concrete pseudo-random stream (numpy's seeded MT19937) is modelled by an
explicit deterministic generator — a linear congruential stand-in — since
the determinism property depends only on the stream being a function of the
seed, not on its values.  `LinearRegression` is embedded as exact
normal-equations least squares over `Rat` (with intercept); a singular
system falls back to the zero vector (sklearn's `lstsq` would return a
minimum-norm solution there, which no claim evaluates).  `BaggingRegressor`
draws `n_estimators = 10` bootstrap samples of `n` rows each and averages
the base models' predictions.
-/

/-- Dot product. -/
def dot (a b : List Rat) : Rat := (a.zip b).foldl (fun s p => s + p.1 * p.2) 0

/-- First row with a nonzero leading coefficient, plus the other rows. -/
def pivotRow? : List (List Rat) → Option (List Rat × List (List Rat))
  | [] => none
  | r :: rs =>
    match r with
    | [] => none
    | x :: _ =>
      if x ≠ 0 then some (r, rs)
      else (pivotRow? rs).map (fun p => (p.1, r :: p.2))

/-- Eliminate the leading variable of `row` using pivot row `piv`. -/
def elimRow (piv row : List Rat) : List Rat :=
  match piv, row with
  | p0 :: ptail, x :: xtail => List.zipWith (fun a b => a - x / p0 * b) xtail ptail
  | _, _ => []

/-- Gaussian elimination with back substitution on an `n × (n+1)` augmented
system; `none` when singular. -/
def gaussSolve : Nat → List (List Rat) → Option (List Rat)
  | 0, _ => some []
  | n + 1, rows =>
    match pivotRow? rows with
    | none => none
    | some (piv, rest) =>
      match piv with
      | [] => none
      | p0 :: ptail =>
        (gaussSolve n (rest.map (elimRow (p0 :: ptail)))).map (fun xs =>
          ((((ptail.drop n).headD 0) - dot (ptail.take n) xs) / p0) :: xs)

/-- One row of the normal-equations system `(AᵀA | Aᵀy)`. -/
def normalRow (rows : List (List Rat)) (ys : List Rat) (d i : Nat) : List Rat :=
  ((List.range d).map (fun j =>
      ((rows.zip ys).map (fun ry => ry.1.getD i 0 * ry.1.getD j 0)).sum))
    ++ [((rows.zip ys).map (fun ry => ry.1.getD i 0 * ry.2)).sum]

/-- `LinearRegression().fit`: least squares with intercept via the normal
equations. -/
def linFit (X : List (List Rat)) (ys : List Rat) : List Rat :=
  let rows := X.map (fun r => (1 : Rat) :: r)
  let d := (rows.headD []).length
  match gaussSolve d ((List.range d).map (normalRow rows ys d)) with
  | some beta => beta
  | none => List.replicate d 0

/-- Prediction of one fitted linear base model. -/
def linPredict (beta x : List Rat) : Rat := dot beta ((1 : Rat) :: x)

/-- Deterministic stand-in for one step of numpy's seeded generator. -/
def prngNext (s : Nat) : Nat := (1664525 * s + 1013904223) % 4294967296

/-- `count` successive generator outputs from state `s`. -/
def prngStream : Nat → Nat → List Nat
  | 0, _ => []
  | k + 1, s => prngNext s :: prngStream k (prngNext s)

/-- A bootstrap sample: `count` indices below `n` drawn from the seeded
stream. -/
def sampleIndices (seed n count : Nat) : List Nat :=
  (prngStream count seed).map (fun v => v % n)

/-- The fitted ensemble: the base models' coefficient vectors. -/
structure BaggModel where
  betas : List (List Rat)
  deriving DecidableEq, Repr

/-- `BaggingRegressor(...).fit`: resolve the RNG (`check_random_state`),
then fit 10 base models on bootstrap samples.  Returns the fitted ensemble
and the ambient RNG state after the call. -/
def baggingRegressorFit (ambientRng : Nat) (random_state : Option Nat)
    (X : List (List Rat)) (ys : List Rat) : BaggModel × Nat :=
  let seeded := match random_state with
    | some s => (s, ambientRng)
    | none => (prngNext ambientRng, prngNext ambientRng)
  let n := X.length
  let betas := (List.range 10).map (fun i =>
    let idxs := sampleIndices (seeded.1 + i) n n
    linFit (idxs.map (fun j => X.getD j [])) (idxs.map (fun j => ys.getD j 0)))
  (⟨betas⟩, seeded.2)

/-- `BaggRegressor.fit`: the source passes the constant `random_state=0`. -/
def baggRegressorFit (ambientRng : Nat) (X : List (List Rat)) (ys : List Rat) :
    BaggModel × Nat :=
  baggingRegressorFit ambientRng (some 0) X ys

/-- Ensemble prediction: the mean of the base models' predictions. -/
def baggModelPredict (m : BaggModel) (X : List (List Rat)) : List Rat :=
  X.map (fun x => (m.betas.map (fun b => linPredict b x)).sum / (m.betas.length : Rat))

/-- `BaggRegressor.predict`: `self._model` is missing before `fit`
(`AttributeError`). -/
def baggRegressorPredict (st : Option BaggModel) (X : List (List Rat)) :
    Except PyError (List Rat) :=
  match st with
  | none => .error .attributeError
  | some m => .ok (baggModelPredict m X)

end BaggingModel

/-- C9: the bagging wrapper is deterministic.  Whatever the ambient global
RNG state is at each of two independent `fit(X, y)` calls, the fitted
ensembles are identical and predictions on the same query agree — because
the source passes the fixed seed `random_state=0`, the ensemble is a
function of `(X, y)` alone. -/
theorem bagging_fit_deterministic (rngA rngB : Nat) (X : List (List Rat))
    (ys : List Rat) (q : List (List Rat)) :
    (baggRegressorFit rngA X ys).1 = (baggRegressorFit rngB X ys).1
    ∧ baggRegressorPredict (some (baggRegressorFit rngA X ys).1) q
      = baggRegressorPredict (some (baggRegressorFit rngB X ys).1) q :=
  ⟨rfl, rfl⟩

/-- C6 (counterexample): an unfitted `AverageChargesPerRegionRegressor`
asked to predict on an input with an empty `region` column does not fail at
all — `Series.apply` never invokes the closure, so `predict` returns an
empty prediction series. -/
theorem unfitted_groupavg_empty_no_error :
    avgPredict none [("region", [])] = .ok []
    ∧ exIsOk (avgPredict none [("region", [])]) = true := ⟨rfl, rfl⟩

/-- C6 (amended): used before `fit`, `CategoricalEncoder.transform` and
`BaggRegressor.predict` always fail, and the group-average steps fail on
any input with a nonempty `region` column — in every case with
`AttributeError` (a fitted attribute is missing), not sklearn's
`NotFittedError`; on an empty `region` column the group-average steps
return an empty result instead of failing. -/
theorem unfitted_steps_attribute_error (X : Table) (Xb : List (List Rat))
    (ks : List PyVal) :
    categoricalEncoderTransform none X = .error .attributeError
    ∧ baggRegressorPredict none Xb = .error .attributeError
    ∧ (X.getCol "region" = .ok ks → ks ≠ [] →
        avgPredict none X = .error .attributeError)
    ∧ (X.getCol "region" = .ok ks → ks ≠ [] →
        avgTransform none X = .error .attributeError)
    ∧ (X.getCol "region" = .ok [] → avgPredict none X = .ok []) := by
  refine ⟨rfl, rfl, ?_, ?_, ?_⟩
  · intro hks hne
    unfold avgPredict
    rw [hks]
    cases ks with
    | nil => exact absurd rfl hne
    | cons k t => simp [exceptMap, getAverageE]
  · intro hks hne
    unfold avgTransform
    rw [hks]
    cases ks with
    | nil => exact absurd rfl hne
    | cons k t => simp [exceptMap, getAverageE]
  · intro hks
    unfold avgPredict
    rw [hks]
    rfl

/-- Witness for C6 (amended) on a one-row table. -/
theorem unfitted_steps_attribute_error_witness :
    (Table.getCol [("region", [PyVal.pstr "A"])] "region" = .ok [PyVal.pstr "A"]
      ∧ ([PyVal.pstr "A"] : List PyVal) ≠ [])
    ∧ avgPredict none [("region", [PyVal.pstr "A"])] = .error .attributeError :=
  ⟨⟨rfl, by decide⟩,
   (unfitted_steps_attribute_error [("region", [PyVal.pstr "A"])] [] [PyVal.pstr "A"]).2.2.1
     rfl (by decide)⟩

/-- C3 (counterexample): an input that contains the configured column but
not the rest of the fitted schema does not get transformed at all — the
fitted column transformer rejects the feature mismatch with `ValueError`
instead of returning a dataset. -/
theorem discretizer_missing_remainder_column_fails :
    discretizerFit dW XdW [] = .ok stW
    ∧ "age" ∈ Table.names [("age", [PyVal.pnum 2])]
    ∧ discretizerTransform (some stW) [("age", [PyVal.pnum 2])] = .error .valueError :=
  ⟨rfl, by decide, rfl⟩
